import Mathlib

/-!
# Verification of the dependency-analyzer module graph engine

Shallow embedding of `analyze_dependencies.py` (the import resolver, the
Python import extractor, the graph builder second pass, cycle detector,
coupling analyzer and layer-violation detector) together with proofs
about the embedded definitions.

Strings are embedded as `List Char` (`Str`), which matches Python `str`
for the ASCII inputs the analyzer manipulates; the filesystem that
`os.path.isfile` / `os.path.exists` consult is an explicit structure of
file and directory path lists.
-/

namespace DepAnalyzer

/-- Python `str`, embedded as a list of characters. -/
abbrev Str := List Char

/-- Convert a Lean string literal to the embedded string type. -/
def str (s : String) : Str := s.toList

/-- `prefChars pre s` decides whether `pre` is a leading segment of `s`
(Python `str.startswith`). -/
def prefChars : Str → Str → Bool
  | [], _ => true
  | _ :: _, [] => false
  | p :: ps, c :: cs => (p == c) && prefChars ps cs

/-- Python `s.startswith(pre)`. -/
def sStartsWith (s pre : Str) : Bool := prefChars pre s

/-- Python `s.endswith(suf)`. -/
def sEndsWith (s suf : Str) : Bool := prefChars suf.reverse s.reverse

/-- `posixpath.dirname`: everything up to the final `/`, with trailing
slashes stripped unless the head is all slashes. -/
def dirname (p : Str) : Str :=
  if '/' ∈ p then
    let head := (p.reverse.dropWhile (fun c => !(c == '/'))).reverse
    if head.all (fun c => c == '/') then head
    else (head.reverse.dropWhile (fun c => c == '/')).reverse
  else []

/-- `posixpath.join` restricted to two arguments, as the analyzer uses it. -/
def pjoin (a b : Str) : Str :=
  if sStartsWith b (str "/") then b
  else if a = [] ∨ sEndsWith a (str "/") then a ++ b
  else a ++ str "/" ++ b

/-- Python `path.split('/')`: split on every `/`, keeping empty pieces. -/
def splitOnSlash (cs : Str) : List Str :=
  cs.foldr
    (fun c acc =>
      match acc with
      | [] => [[]]
      | h :: t => if c == '/' then [] :: h :: t else (c :: h) :: t)
    [[]]

/-- `'/'.join(parts)` (Python `str.join` with a one-character separator). -/
def joinSlash : List Str → Str
  | [] => []
  | [p] => p
  | p :: ps => p ++ '/' :: joinSlash ps

/-- Path components of a normalized path: split on `/`, dropping empty
pieces and `.` (the part of `posixpath.normpath` exercised here). -/
def comps (p : Str) : List Str :=
  (splitOnSlash p).filter (fun s => !(s == []) && !(s == str "."))

/-- Length of the common leading run of two component lists. -/
def commonLen : List Str → List Str → Nat
  | a :: as_, b :: bs => if a = b then commonLen as_ bs + 1 else 0
  | _, _ => 0

/-- `posixpath.relpath` for inputs that are already normalized and rooted
in the same way (the analyzer passes an absolute scan root and paths built
underneath it): drop the common component prefix, go up once per leftover
base component, then descend into the leftover path components. -/
def relpath (p base : Str) : Str :=
  let pc := comps p
  let bc := comps base
  let k := commonLen pc bc
  let cs := List.replicate (bc.length - k) (str "..") ++ pc.drop k
  if cs = [] then str "." else joinSlash cs

/-- `normalize_path` from the source: `os.path.relpath(path, base_dir)`
(the `ValueError` fallback never fires for same-rooted POSIX paths). -/
def normalize_path (p base_dir : Str) : Str := relpath p base_dir

/-- The filesystem the resolver probes: regular files and directories. -/
structure FS where
  files : List Str
  dirs : List Str
deriving DecidableEq

/-- `os.path.isfile`. -/
def FS.isfile (fs : FS) (p : Str) : Bool := fs.files.contains p

/-- `os.path.exists`. -/
def FS.existsPath (fs : FS) (p : Str) : Bool :=
  fs.files.contains p || fs.dirs.contains p

/-- The suffix-probe list tried by `resolve_import`, in order. -/
def extList : List Str :=
  [str "", str ".ts", str ".tsx", str ".js", str ".jsx", str ".py",
   str "/index.ts", str "/index.js"]

/-- The final loop of `resolve_import`: try `resolved + ext` for each
suffix in order; the first existing regular file wins and is returned in
project-root-relative normalized form. -/
def probeExts (fs : FS) (resolved base_dir : Str) : Option Str :=
  match extList.find? (fun ext => fs.isfile (resolved ++ ext)) with
  | some ext => some (normalize_path (resolved ++ ext) base_dir)
  | none => none

/-- `resolve_import(import_path, current_file, base_dir)` from the source:
relative paths resolve against the importing file's directory (counting
every `..` segment as one `dirname` step and joining the non-`..`
segments), `@/`- and `~/`-prefixed paths resolve under the project root,
bare specifiers are treated as local only when the literal path or the
path plus `.ts` exists, and everything funnels into the suffix probe. -/
def resolve_import (fs : FS) (import_path current_file base_dir : Str) :
    Option Str :=
  if sStartsWith import_path (str ".") then
    let current_dir := dirname current_file
    let resolved :=
      if sStartsWith import_path (str "./") then
        pjoin current_dir (import_path.drop 2)
      else if sStartsWith import_path (str "../") then
        let parts := splitOnSlash import_path
        let upCount := (parts.filter (fun p => p = str "..")).length
        let remaining := joinSlash (parts.filter (fun p => ¬ p = str ".."))
        pjoin (Nat.repeat dirname upCount current_dir) remaining
      else
        pjoin current_dir (import_path.drop 1)
    probeExts fs resolved base_dir
  else if sStartsWith import_path (str "@/") || sStartsWith import_path (str "~/") then
    probeExts fs (pjoin base_dir (import_path.drop 2)) base_dir
  else if !(sStartsWith import_path (str "/")) then
    let potential := pjoin base_dir import_path
    if fs.existsPath potential || fs.existsPath (potential ++ str ".ts") then
      probeExts fs potential base_dir
    else none
  else
    probeExts fs import_path base_dir

example : dirname (str "a/b/c.ts") = str "a/b" := by decide
example : dirname (str "a/b") = str "a" := by decide
example : dirname (str "a") = str "" := by decide
example : pjoin (str "a/b") (str "e") = str "a/b/e" := by decide
example : splitOnSlash (str "../d") = [str "..", str "d"] := by decide
example : relpath (str "a/d.ts") (str "") = str "a/d.ts" := by decide
example : relpath (str "/r/a") (str "/r") = str "a" := by decide

example :
    resolve_import ⟨[str "a/d"], []⟩ (str "../d") (str "a/b/c.ts") (str "") =
      some (str "a/d") := by decide

example :
    resolve_import ⟨[str "a/b/e"], []⟩ (str "./e") (str "a/b/c.ts") (str "") =
      some (str "a/b/e") := by decide

example :
    resolve_import ⟨[str "x/y"], []⟩ (str "@/x/y") (str "whatever.ts") (str "") =
      some (str "x/y") := by decide

example :
    resolve_import ⟨[], []⟩ (str "lodash") (str "a.ts") (str "") = none := by decide

/-! ## Python import extraction (`extract_imports_python`) -/

/-- Python regex `\s` over the ASCII range. -/
def isSpaceCh (c : Char) : Bool :=
  c == ' ' || c == '\t' || c == '\n' || c == '\r' || c == '\x0b' || c == '\x0c'

/-- Python regex `\w` over the ASCII range: alphanumeric or underscore. -/
def isWordCh (c : Char) : Bool := c.isAlphanum || c == '_'

/-- Character class `[\w.]` used by both import patterns. -/
def isWordDot (c : Char) : Bool := isWordCh c || c == '.'

/-- Match the pattern `from\s+([\w.]+)\s+import` at the head of `cs`.
Because `\s` and `[\w.]` are disjoint character classes, maximal munch in
each run is the unique way the regex engine can match, so no backtracking
is needed.  Returns the captured group and the text after the match. -/
def tryFrom (cs : Str) : Option (Str × Str) :=
  match cs with
  | 'f' :: 'r' :: 'o' :: 'm' :: rest =>
    let s1 := rest.takeWhile isSpaceCh
    let r1 := rest.dropWhile isSpaceCh
    if s1 = [] then none else
    let g := r1.takeWhile isWordDot
    let r2 := r1.dropWhile isWordDot
    if g = [] then none else
    let s2 := r2.takeWhile isSpaceCh
    let r3 := r2.dropWhile isSpaceCh
    if s2 = [] then none else
    match r3 with
    | 'i' :: 'm' :: 'p' :: 'o' :: 'r' :: 't' :: rest2 => some (g, rest2)
    | _ => none
  | _ => none

/-- `re.finditer` for the unanchored pattern `from\s+([\w.]+)\s+import`:
try each position left to right, resuming after the end of every match
(non-overlapping matches).  `fuel` bounds the number of scanning steps;
each step consumes at least one character, so `cs.length + 1` is enough. -/
def scanFromAux : Nat → Str → List Str
  | 0, _ => []
  | _ + 1, [] => []
  | fuel + 1, c :: cs =>
    match tryFrom (c :: cs) with
    | some (g, rest) => g :: scanFromAux fuel rest
    | none => scanFromAux fuel cs

/-- All groups captured by the `from … import` pattern over `content`. -/
def scanFrom (content : Str) : List Str :=
  scanFromAux (content.length + 1) content

/-- Match the pattern `import\s+([\w.]+)` at the head of `cs` (the part of
`^import\s+([\w.]+)` after its anchor). -/
def tryImport (cs : Str) : Option (Str × Str) :=
  match cs with
  | 'i' :: 'm' :: 'p' :: 'o' :: 'r' :: 't' :: rest =>
    let s1 := rest.takeWhile isSpaceCh
    let r1 := rest.dropWhile isSpaceCh
    if s1 = [] then none else
    let g := r1.takeWhile isWordDot
    let r2 := r1.dropWhile isWordDot
    if g = [] then none else some (g, r2)
  | _ => none

/-- `re.finditer` with `re.MULTILINE` for `^import\s+([\w.]+)`: a match
may only start at the beginning of the content or right after a newline
(`atStart` tracks that); after a match the scan resumes past it, and the
last consumed character of a match is a `[\w.]` character, never a
newline, so the position after a match is not a line start. -/
def scanImpAux : Nat → Bool → Str → List Str
  | 0, _, _ => []
  | _ + 1, _, [] => []
  | fuel + 1, atStart, c :: cs =>
    if atStart then
      match tryImport (c :: cs) with
      | some (g, rest) => g :: scanImpAux fuel false rest
      | none => scanImpAux fuel (c == '\n') cs
    else scanImpAux fuel (c == '\n') cs

/-- All groups captured by the line-anchored `import …` pattern. -/
def scanImp (content : Str) : List Str :=
  scanImpAux (content.length + 1) true content

/-- `module_path.replace('.', '/')`. -/
def dotsToSlashes (g : Str) : Str := g.map (fun c => if c = '.' then '/' else c)

/-- The `from x import y` half of `extract_imports_python`: every group in
match order, converted to a slash path, resolved, with failures dropped. -/
def pyFromImports (fs : FS) (content filepath base_dir : Str) : List Str :=
  (scanFrom content).filterMap
    (fun g => resolve_import fs (dotsToSlashes g) filepath base_dir)

/-- The `import x` half of `extract_imports_python` (line-anchored). -/
def pyLineImports (fs : FS) (content filepath base_dir : Str) : List Str :=
  (scanImp content).filterMap
    (fun g => resolve_import fs (dotsToSlashes g) filepath base_dir)

/-- `extract_imports_python`: the `from` pass followed by the `import`
pass, in the source's order. -/
def extract_imports_python (fs : FS) (content filepath base_dir : Str) :
    List Str :=
  pyFromImports fs content filepath base_dir ++
    pyLineImports fs content filepath base_dir

example : scanFrom (str "from a.b import c") = [str "a.b"] := by decide
example : scanFrom (str "x = 1 # from a import b") = [str "a"] := by decide
example : scanImp (str "import os") = [str "os"] := by decide
example : scanImp (str "x = 1 # import os") = [] := by decide
example : scanImp (str "  import os") = [] := by decide
example : scanImp (str "x = 1\nimport os") = [str "os"] := by decide
example : dotsToSlashes (str "a.b.c") = str "a/b/c" := by decide

/-! ## Module map and builder second pass -/

/-- `ModuleInfo` from the source (the fields the analyses read). -/
structure ModuleInfo where
  path : Str
  imports : List Str
  import_count : Nat
  imported_by_count : Nat
deriving DecidableEq

/-- The module map `Dict[str, ModuleInfo]`, embedded as an association
list in dict insertion order. -/
abbrev ModList := List (Str × ModuleInfo)

/-- `node in modules`. -/
def keyMem (ms : ModList) (k : Str) : Bool := ms.any (fun pr => pr.1 = k)

/-- `modules[node]` (guarded lookups only in the source). -/
def mlookup (ms : ModList) (k : Str) : Option ModuleInfo :=
  match ms.find? (fun pr => pr.1 = k) with
  | some pr => some pr.2
  | none => none

/-- The `imported_by_count` tally of `analyze_directory`: one increment
per occurrence of `p` in any module's `imports` list. -/
def countImportedBy (ms : ModList) (p : Str) : Nat :=
  ms.foldl (fun acc pr => acc + pr.2.imports.count p) 0

/-- The second pass of `analyze_directory`: store the tally into every
module's `imported_by_count` field. -/
def updateImportedBy (ms : ModList) : ModList :=
  ms.map (fun pr => (pr.1, { pr.2 with imported_by_count := countImportedBy ms pr.1 }))

/-! ## Cycle detector (`find_circular_dependencies`) -/

/-- The mutable state shared by all `dfs` calls: the global `visited`
set, the recursion stack, and the emitted cycles in emission order. -/
structure DfsSt where
  visited : List Str
  recStack : List Str
  cycles : List (List Str)
deriving DecidableEq

/-- The inner `dfs(node, path)` of `find_circular_dependencies`.  `fuel`
bounds recursion depth; every recursive call happens after a fresh node
was added to `visited`, so depth never exceeds `|modules| + 1` and the
driver's fuel is never exhausted. -/
def dfs (ms : ModList) : Nat → DfsSt → Str → List Str → DfsSt
  | 0, st, _, _ => st
  | fuel + 1, st, node, path =>
    if node ∈ st.recStack then
      { st with cycles := st.cycles ++ [path.drop (path.indexOf node)] }
    else if node ∈ st.visited then st
    else
      let st1 : DfsSt :=
        { st with visited := st.visited ++ [node], recStack := st.recStack ++ [node] }
      let path1 := path ++ [node]
      let st2 :=
        match mlookup ms node with
        | some info =>
          info.imports.foldl
            (fun s imp => if keyMem ms imp then dfs ms fuel s imp path1 else s) st1
        | none => st1
      { st2 with recStack := st2.recStack.erase node }

/-- The driver loop: start a DFS at every not-yet-visited module, in map
order, and collect the emitted cycles. -/
def rawCycles (ms : ModList) : List (List Str) :=
  (ms.foldl
    (fun st pr =>
      if pr.1 ∈ st.visited then st else dfs ms (ms.length + 1) st pr.1 [])
    ⟨[], [], []⟩).cycles

/-- `tuple(sorted(cycle))`: the dedup key, the members sorted
lexicographically. -/
def sortKey (c : List Str) : List Str := c.insertionSort (· ≤ ·)

/-- The dedup loop: keep a cycle only when its sorted-member key has not
been seen before. -/
def dedupAux (seen : List (List Str)) : List (List Str) → List (List Str)
  | [] => []
  | c :: cs =>
    if sortKey c ∈ seen then dedupAux seen cs
    else c :: dedupAux (sortKey c :: seen) cs

/-- `find_circular_dependencies`: DFS emission followed by first-seen
deduplication by sorted member tuple. -/
def find_circular_dependencies (ms : ModList) : List (List Str) :=
  dedupAux [] (rawCycles ms)

/-! ## Coupling analyzer (`analyze_coupling`) -/

def HIGH_COUPLING_THRESHOLD : Nat := 5
def TOTAL_COUPLING_THRESHOLD : Nat := 10

structure CouplingIssue where
  module : Str
  incoming : Nat
  outgoing : Nat
  total : Nat
deriving DecidableEq

/-- The `is_hub` property of `CouplingIssue`: high incoming AND outgoing. -/
def CouplingIssue.is_hub (i : CouplingIssue) : Bool :=
  decide (i.incoming > HIGH_COUPLING_THRESHOLD) &&
    decide (i.outgoing > HIGH_COUPLING_THRESHOLD)

/-- The `imported_by` tally local to `analyze_coupling`: like the
builder's tally but only counting imports that are module-map keys. -/
def couplingIncoming (ms : ModList) (p : Str) : Nat :=
  ms.foldl
    (fun acc pr => acc + (pr.2.imports.filter (fun imp => keyMem ms imp)).count p) 0

/-- The flagging loop of `analyze_coupling`, before sorting: one issue
per module whose coupling exceeds the thresholds, in map order. -/
def collectIssues (ms : ModList) : List CouplingIssue :=
  ms.filterMap
    (fun pr =>
      let outgoing := pr.2.import_count
      let incoming := couplingIncoming ms pr.1
      let total := incoming + outgoing
      if total > TOTAL_COUPLING_THRESHOLD ∨
          (incoming > HIGH_COUPLING_THRESHOLD ∧ outgoing > HIGH_COUPLING_THRESHOLD) then
        some ⟨pr.1, incoming, outgoing, total⟩
      else none)

/-- Insert into a descending-by-`total` list after every element whose
total is at least as large (this is where stability comes from). -/
def insertIssue (x : CouplingIssue) : List CouplingIssue → List CouplingIssue
  | [] => [x]
  | y :: ys => if x.total ≤ y.total then y :: insertIssue x ys else x :: y :: ys

/-- `sorted(issues, key=lambda x: x.total, reverse=True)`: Python's sort
is stable, so it is extensionally the left-to-right stable insertion of
each issue into a descending list. -/
def sortIssues (l : List CouplingIssue) : List CouplingIssue :=
  l.foldl (fun acc x => insertIssue x acc) []

/-- `analyze_coupling`: flag, then stable-sort by total descending. -/
def analyze_coupling (ms : ModList) : List CouplingIssue :=
  sortIssues (collectIssues ms)

/-! ## Layer violation detector (`detect_layer_violations`) -/

/-- `hasSub pat s` decides whether `pat` occurs contiguously inside `s`:
`re.search` for the literal layer patterns. -/
def hasSub (pat : Str) (s : Str) : Bool :=
  match s with
  | [] => pat = []
  | _ :: t => prefChars pat s || hasSub pat t

/-- The hard-coded `layer_patterns` table, in dict order. -/
def layerPatterns : List (Str × List Str) :=
  [(str "presentation", [str "/components/", str "/pages/", str "/views/", str "/ui/"]),
   (str "application", [str "/services/", str "/usecases/", str "/application/"]),
   (str "domain", [str "/domain/", str "/models/", str "/entities/"]),
   (str "infrastructure",
    [str "/infrastructure/", str "/repositories/", str "/adapters/", str "/db/"])]

/-- `get_layer`: the first layer (in table order) one of whose patterns
occurs in the path; `none` when no pattern matches. -/
def get_layer (p : Str) : Option Str :=
  (layerPatterns.find? (fun lp => lp.2.any (fun pat => hasSub pat p))).map (·.1)

/-- The `allowed` dependency table (`dict.get` with default `[]`). -/
def allowed (l : Str) : List Str :=
  if l = str "presentation" then [str "application", str "domain"]
  else if l = str "application" then [str "domain"]
  else if l = str "domain" then []
  else if l = str "infrastructure" then [str "domain"]
  else []

/-- `detect_layer_violations`: for every module with a classified path
and every import with a classified target, flag the edge when the target
layer is neither permitted nor equal to the source layer. -/
def detect_layer_violations (ms : ModList) : List (Str × Str × Str) :=
  (ms.map
    (fun pr =>
      match get_layer pr.1 with
      | none => []
      | some sl =>
        pr.2.imports.filterMap
          (fun imp =>
            match get_layer imp with
            | none => none
            | some tl =>
              if tl ∉ allowed sl ∧ tl ≠ sl then
                some (pr.1, imp, sl ++ str " → " ++ tl)
              else none))).flatten

example : get_layer (str "src/ui/button.ts") = some (str "presentation") := by decide
example : get_layer (str "src/lib/util.ts") = none := by decide
example :
    detect_layer_violations
      [(str "a/db/x.ts", ⟨str "a/db/x.ts", [str "b/ui/y.ts"], 1, 0⟩),
       (str "b/ui/y.ts", ⟨str "b/ui/y.ts", [], 0, 1⟩)] =
      [(str "a/db/x.ts", str "b/ui/y.ts", str "infrastructure → presentation")] := by
  decide

example :
    find_circular_dependencies
      [(str "A", ⟨str "A", [str "B"], 1, 0⟩),
       (str "B", ⟨str "B", [str "C"], 1, 0⟩),
       (str "C", ⟨str "C", [str "A"], 1, 0⟩)] = [[str "A", str "B", str "C"]] := by
  decide

example :
    find_circular_dependencies
      [(str "A", ⟨str "A", [str "B"], 1, 0⟩),
       (str "B", ⟨str "B", [str "C"], 1, 0⟩)] = [] := by decide

example :
    analyze_coupling [(str "m", ⟨str "m", [], 11, 0⟩)] =
      [⟨str "m", 0, 11, 11⟩] := by decide

/-! ## Derived graph notions used by the claims -/

/-- `a → b` is an internal edge of the module graph: `b` occurs in the
imports of `a` and `b` is itself a key of the module map (the only edges
the cycle detector follows). -/
def internalEdge (ms : ModList) (a b : Str) : Bool :=
  (match mlookup ms a with
   | some info => info.imports.contains b
   | none => false) && keyMem ms b

/-- The extension filter of `analyze_directory`'s walk:
`any(filename.endswith(ext) for ext in extensions)`. -/
def scanExtensions : List Str :=
  [str ".js", str ".ts", str ".jsx", str ".tsx", str ".py", str ".mjs"]

/-- Whether a file name would ever be scanned into the module map. -/
def isScannedName (f : Str) : Bool := scanExtensions.any (fun e => sEndsWith f e)

/-! ## C1 — cycle-detector completeness -/

/-- The failing module graph for C1: `v → x`, `v → w`, `x → w`, `w → v`.
The closed walk `v → w → v` is a directed cycle over internal edges with
node set `{v, w}`. -/
def cexC1 : ModList :=
  [(str "v", ⟨str "v", [str "x", str "w"], 2, 0⟩),
   (str "x", ⟨str "x", [str "w"], 1, 0⟩),
   (str "w", ⟨str "w", [str "v"], 1, 0⟩)]

/-- C1: the cycle detector is *not* complete.  On `cexC1` both `v → w`
and `w → v` are internal edges, so `v → w → v` is a directed cycle whose
node set is `{v, w}` — yet the only reported cycle is `[v, x, w]`: the
DFS reaches `w` first through `x`, marks it fully explored, and the
later edge `v → w` is skipped by the `visited` check, so no reported
cycle has member set `{v, w}`.  This contradicts the function's own
docstring ("Find all circular dependency chains") and the spec's
completeness statement. -/
theorem cycle_detector_incompleteness :
    find_circular_dependencies cexC1 = [[str "v", str "x", str "w"]] ∧
    internalEdge cexC1 (str "v") (str "w") = true ∧
    internalEdge cexC1 (str "w") (str "v") = true ∧
    ((find_circular_dependencies cexC1).map sortKey).contains
      (sortKey [str "v", str "w"]) = false := by decide

/-! ## C10 — imports that are not module-map keys -/

/-- A module whose eleven deduplicated imports are all resolved paths
that are not keys of the module map. -/
def exC10 : ModList :=
  [(str "m", ⟨str "m",
    [str "e1", str "e2", str "e3", str "e4", str "e5", str "e6",
     str "e7", str "e8", str "e9", str "e10", str "e11"], 11, 0⟩)]

/-- A module importing itself plus one path that is not a map key. -/
def exSelf : ModList :=
  [(str "m", ⟨str "m", [str "x", str "m"], 2, 0⟩)]

/-- C10: a resolved import need not be a module-map key.  The bare
specifier `util` resolves to the extension-less file `util`, whose name
matches none of the scanned extensions, so it can never become a module
key; a module whose eleven imports are all non-keys is still reported
with `outgoing = 11` (non-key imports count toward `import_count` and
hence the coupling analyzer's outgoing figure), while the cycle detector
follows only imports that are keys: on `exC10` it finds nothing, and on
`exSelf` it follows the self-edge `m → m` but silently skips the
non-key import `x`. -/
theorem imports_outside_module_map :
    resolve_import ⟨[str "util"], []⟩ (str "util") (str "m.ts") (str "") =
      some (str "util") ∧
    isScannedName (str "util") = false ∧
    analyze_coupling exC10 = [⟨str "m", 0, 11, 11⟩] ∧
    find_circular_dependencies exC10 = [] ∧
    find_circular_dependencies exSelf = [[str "m"]] := by decide

/-! ## C3 — cycle deduplication by member set -/

lemma dedupAux_cons (seen : List (List Str)) (x : List Str) (xs : List (List Str)) :
    dedupAux seen (x :: xs) =
      if sortKey x ∈ seen then dedupAux seen xs
      else x :: dedupAux (sortKey x :: seen) xs := rfl

lemma dedupAux_not_mem_seen {seen : List (List Str)} {l : List (List Str)}
    {c : List Str} (h : c ∈ dedupAux seen l) : sortKey c ∉ seen := by
  induction l generalizing seen with
  | nil => simp [dedupAux] at h
  | cons x xs ih =>
    rw [dedupAux_cons] at h
    by_cases hx : sortKey x ∈ seen
    · rw [if_pos hx] at h
      exact ih h
    · rw [if_neg hx] at h
      cases List.mem_cons.mp h with
      | inl heq => rw [heq]; exact hx
      | inr hmem =>
        have := ih hmem
        exact fun hc => this (List.mem_cons_of_mem _ hc)

lemma dedupAux_pairwise (seen : List (List Str)) (l : List (List Str)) :
    (dedupAux seen l).Pairwise (fun c d => sortKey c ≠ sortKey d) := by
  induction l generalizing seen with
  | nil => simp [dedupAux]
  | cons x xs ih =>
    rw [dedupAux_cons]
    by_cases hx : sortKey x ∈ seen
    · rw [if_pos hx]; exact ih seen
    · rw [if_neg hx]
      refine List.Pairwise.cons (fun d hd => ?_) (ih _)
      have hns := dedupAux_not_mem_seen hd
      intro hcontra
      exact hns (by rw [← hcontra]; exact List.mem_cons_self _ _)

lemma dedupAux_mem_iff (l : List (List Str)) (seen : List (List Str)) (c : List Str) :
    c ∈ dedupAux seen l ↔
      ∃ l₁ l₂, l = l₁ ++ c :: l₂ ∧ sortKey c ∉ seen ∧
        ∀ d ∈ l₁, sortKey d ≠ sortKey c := by
  induction l generalizing seen with
  | nil =>
    simp only [dedupAux, List.not_mem_nil, false_iff]
    rintro ⟨l₁, l₂, h, -, -⟩
    exact (List.append_ne_nil_of_right_ne_nil l₁ (List.cons_ne_nil c l₂)) h.symm
  | cons x xs ih =>
    rw [dedupAux_cons]
    by_cases hx : sortKey x ∈ seen
    · rw [if_pos hx, ih]
      constructor
      · rintro ⟨l₁, l₂, rfl, hns, hkeys⟩
        refine ⟨x :: l₁, l₂, rfl, hns, ?_⟩
        intro d hd
        cases List.mem_cons.mp hd with
        | inl heq => rw [heq]; intro hc; rw [hc] at hx; exact hns hx
        | inr hmem => exact hkeys d hmem
      · rintro ⟨l₁, l₂, heq, hns, hkeys⟩
        cases l₁ with
        | nil =>
          simp only [List.nil_append, List.cons.injEq] at heq
          exact absurd (heq.1 ▸ hx) hns
        | cons y l₁' =>
          simp only [List.cons_append, List.cons.injEq] at heq
          exact ⟨l₁', l₂, heq.2, hns, fun d hd => hkeys d (List.mem_cons_of_mem _ hd)⟩
    · rw [if_neg hx]
      constructor
      · intro h
        cases List.mem_cons.mp h with
        | inl heq =>
          exact ⟨[], xs, by rw [heq]; rfl, by rw [heq]; exact hx, by simp⟩
        | inr hmem =>
          rcases (ih _).mp hmem with ⟨l₁, l₂, rfl, hns, hkeys⟩
          have hne : sortKey c ≠ sortKey x :=
            fun hc => hns (by rw [hc]; exact List.mem_cons_self _ _)
          refine ⟨x :: l₁, l₂, rfl, fun hc => hns (List.mem_cons_of_mem _ hc), ?_⟩
          intro d hd
          cases List.mem_cons.mp hd with
          | inl hdx => rw [hdx]; exact fun hc => hne hc.symm
          | inr hdm => exact hkeys d hdm
      · rintro ⟨l₁, l₂, heq, hns, hkeys⟩
        cases l₁ with
        | nil =>
          simp only [List.nil_append, List.cons.injEq] at heq
          rw [heq.1]
          exact List.mem_cons_self _ _
        | cons y l₁' =>
          simp only [List.cons_append, List.cons.injEq] at heq
          have hyx : y = x := heq.1.symm
          refine List.mem_cons_of_mem _ ((ih _).mpr ⟨l₁', l₂, heq.2, ?_, ?_⟩)
          · intro hc
            cases List.mem_cons.mp hc with
            | inl hck => exact hkeys y (List.mem_cons_self _ _) (by rw [hyx, hck])
            | inr hcm => exact hns hcm
          · exact fun d hd => hkeys d (List.mem_cons_of_mem _ hd)

lemma sortKey_eq_iff_perm (c d : List Str) : sortKey c = sortKey d ↔ c.Perm d := by
  constructor
  · intro h
    have h1 : c.Perm (sortKey c) := (List.perm_insertionSort (· ≤ ·) c).symm
    have h2 : (sortKey d).Perm d := List.perm_insertionSort (· ≤ ·) d
    rw [h] at h1
    exact h1.trans h2
  · intro h
    exact List.eq_of_perm_of_sorted
      (((List.perm_insertionSort (· ≤ ·) c).trans h).trans
        (List.perm_insertionSort (· ≤ ·) d).symm)
      (List.sorted_insertionSort _ _) (List.sorted_insertionSort _ _)

/-- C3: deduplication by member set.  In the list the cycle detector
returns, no two cycles have the same sorted member tuple (hence no two
have the same member multiset/set); a cycle is kept iff it is the first
DFS-emitted cycle bearing its member-set key, regardless of which edge
sequence or starting point produced it; and two cycles have equal keys
exactly when their member lists are permutations of one another. -/
theorem cycle_dedup_by_member_set (ms : ModList) :
    (find_circular_dependencies ms).Pairwise (fun c d => sortKey c ≠ sortKey d) ∧
    (∀ c, c ∈ find_circular_dependencies ms ↔
      ∃ l₁ l₂, rawCycles ms = l₁ ++ c :: l₂ ∧ ∀ d ∈ l₁, sortKey d ≠ sortKey c) ∧
    (∀ c d : List Str, sortKey c = sortKey d ↔ c.Perm d) := by
  refine ⟨dedupAux_pairwise [] _, fun c => ?_, sortKey_eq_iff_perm⟩
  rw [find_circular_dependencies, dedupAux_mem_iff]
  simp

/-! ## C2 — builder `imported_by_count` invariant -/

lemma count_of_nodup {l : List Str} (h : l.Nodup) (a : Str) :
    l.count a = if a ∈ l then 1 else 0 := by
  induction l with
  | nil => simp
  | cons x xs ih =>
    rw [List.nodup_cons] at h
    by_cases hax : a = x
    · subst hax
      simp [List.count_cons, ih h.2, h.1]
    · simp [List.count_cons, ih h.2, hax]

lemma foldl_count_shift (ms : ModList) (p : Str) (n : Nat) :
    ms.foldl (fun acc pr => acc + pr.2.imports.count p) n =
      n + ms.foldl (fun acc pr => acc + pr.2.imports.count p) 0 := by
  induction ms generalizing n with
  | nil => simp
  | cons x xs ih =>
    simp only [List.foldl_cons]
    rw [ih (n + x.2.imports.count p), ih (0 + x.2.imports.count p)]
    omega

lemma countImportedBy_eq_filter_length (ms : ModList) (p : Str)
    (h : ∀ pr ∈ ms, pr.2.imports.Nodup) :
    countImportedBy ms p = (ms.filter (fun q => decide (p ∈ q.2.imports))).length := by
  induction ms with
  | nil => rfl
  | cons x xs ih =>
    have hx : x.2.imports.Nodup := h x (List.mem_cons_self _ _)
    have hxs : ∀ pr ∈ xs, pr.2.imports.Nodup :=
      fun pr hpr => h pr (List.mem_cons_of_mem _ hpr)
    rw [countImportedBy, List.foldl_cons, foldl_count_shift, List.filter_cons]
    have hcount := count_of_nodup hx p
    rw [← countImportedBy, ih hxs]
    by_cases hm : p ∈ x.2.imports
    · rw [hcount, if_pos hm]
      simp [hm, Nat.add_comm]
    · rw [hcount, if_neg hm]
      simp [hm]

/-- C2: after the builder's second pass, every module's
`imported_by_count` equals the number of modules in the map (itself
included when it imports its own path) whose deduplicated `imports` list
contains the module's path.  The nodup hypothesis reflects
`imports=list(set(imports))` in `analyze_file`. -/
theorem builder_imported_by_invariant (ms : ModList)
    (h : ∀ pr ∈ ms, pr.2.imports.Nodup) :
    ∀ pr ∈ updateImportedBy ms,
      pr.2.imported_by_count =
        (ms.filter (fun q => decide (pr.1 ∈ q.2.imports))).length := by
  intro pr hpr
  rcases List.mem_map.mp hpr with ⟨q, hq, heq⟩
  rw [← heq]
  exact countImportedBy_eq_filter_length ms q.1 h

/-- Concrete module map for the C2 witness: `a` imports `b`, and `b`
also imports itself, so the tally of `b` is 2. -/
def exC2 : ModList :=
  [(str "a", ⟨str "a", [str "b"], 1, 0⟩), (str "b", ⟨str "b", [str "b"], 1, 0⟩)]

/-- Witness for C2 at a concrete built graph. -/
theorem builder_imported_by_invariant_witness :
    (⟨str "b", [str "b"], 1, 2⟩ : ModuleInfo).imported_by_count =
      (exC2.filter (fun q => decide (str "b" ∈ q.2.imports))).length :=
  builder_imported_by_invariant exC2 (by decide)
    (str "b", (⟨str "b", [str "b"], 1, 2⟩ : ModuleInfo)) (by decide)

/-! ## C7 — coupling flagging -/

lemma mem_insertIssue (x a : CouplingIssue) (l : List CouplingIssue) :
    a ∈ insertIssue x l ↔ a = x ∨ a ∈ l := by
  induction l with
  | nil => simp [insertIssue]
  | cons y ys ih =>
    rw [insertIssue]
    by_cases h : x.total ≤ y.total
    · rw [if_pos h]
      simp only [List.mem_cons, ih]
      tauto
    · rw [if_neg h]
      simp only [List.mem_cons]

lemma mem_sortIssues (l : List CouplingIssue) (a : CouplingIssue) :
    a ∈ sortIssues l ↔ a ∈ l := by
  suffices h : ∀ acc, a ∈ l.foldl (fun acc x => insertIssue x acc) acc ↔
      a ∈ acc ∨ a ∈ l by
    have := h []
    simpa [sortIssues] using this
  induction l with
  | nil => intro acc; simp
  | cons x xs ih =>
    intro acc
    simp only [List.foldl_cons]
    rw [ih, mem_insertIssue]
    simp only [List.mem_cons]
    tauto

lemma mem_analyze_coupling (ms : ModList) (a : CouplingIssue) :
    a ∈ analyze_coupling ms ↔ a ∈ collectIssues ms :=
  mem_sortIssues _ a

lemma keyMem_of_mem {ms : ModList} {p : Str} {info : ModuleInfo}
    (h : (p, info) ∈ ms) : keyMem ms p = true := by
  simp only [keyMem, List.any_eq_true]
  exact ⟨(p, info), h, by simp⟩

lemma nodup_key_unique {ms : ModList} (hnd : (ms.map Prod.fst).Nodup)
    {p : Str} {a b : ModuleInfo} (ha : (p, a) ∈ ms) (hb : (p, b) ∈ ms) : a = b := by
  induction ms with
  | nil => cases ha
  | cons x xs ih =>
    rw [List.map_cons, List.nodup_cons] at hnd
    cases List.mem_cons.mp ha with
    | inl h1 =>
      cases List.mem_cons.mp hb with
      | inl h2 =>
        have : (p, a) = (p, b) := h1.trans h2.symm
        exact (Prod.mk.injEq _ _ _ _ ▸ this).2
      | inr h2 =>
        exact absurd (List.mem_map.mpr ⟨(p, b), h2, by rw [← h1]⟩) hnd.1
    | inr h1 =>
      cases List.mem_cons.mp hb with
      | inl h2 =>
        exact absurd (List.mem_map.mpr ⟨(p, a), h1, by rw [← h2]⟩) hnd.1
      | inr h2 => exact ih hnd.2 h1 h2

lemma count_filter_keyMem (ms : ModList) (p : Str) (hp : keyMem ms p = true)
    (l : List Str) :
    (l.filter (fun imp => keyMem ms imp)).count p = l.count p := by
  induction l with
  | nil => rfl
  | cons x xs ih =>
    rw [List.filter_cons]
    by_cases hx : keyMem ms x = true
    · rw [if_pos hx]
      simp [List.count_cons, ih]
    · rw [if_neg (by simp [hx])]
      rw [ih, List.count_cons]
      have hpx : ¬ p = x := fun hc => hx (hc ▸ hp)
      have hxp : ¬ x = p := fun hc => hpx hc.symm
      simp [hpx, hxp]

lemma couplingIncoming_eq_countImportedBy (ms : ModList) (p : Str)
    (hp : keyMem ms p = true) : couplingIncoming ms p = countImportedBy ms p := by
  suffices h : ∀ (l : List (Str × ModuleInfo)) (n : Nat),
      l.foldl (fun acc pr =>
        acc + (pr.2.imports.filter (fun imp => keyMem ms imp)).count p) n =
      l.foldl (fun acc pr => acc + pr.2.imports.count p) n from h ms 0
  intro l
  induction l with
  | nil => intro n; rfl
  | cons x xs ih =>
    intro n
    simp only [List.foldl_cons]
    rw [count_filter_keyMem ms p hp, ih]

/-- C7: a module appears among the coupling issues iff
`incoming + outgoing > 10` or (`incoming > 5` and `outgoing > 5`);
`is_hub` holds exactly when both counts exceed 5 (so every hub is an
issue but not conversely); and the incoming figure the analyzer computes
coincides with the builder's `imported_by_count` tally for every module
key. -/
theorem coupling_flagging (ms : ModList) (p : Str) (info : ModuleInfo)
    (hmem : (p, info) ∈ ms) (hnd : (ms.map Prod.fst).Nodup) :
    ((∃ iss ∈ analyze_coupling ms, iss.module = p) ↔
      (couplingIncoming ms p + info.import_count > TOTAL_COUPLING_THRESHOLD ∨
        (couplingIncoming ms p > HIGH_COUPLING_THRESHOLD ∧
          info.import_count > HIGH_COUPLING_THRESHOLD))) ∧
    (∀ iss ∈ analyze_coupling ms,
      (iss.is_hub = true ↔
        (iss.incoming > HIGH_COUPLING_THRESHOLD ∧
          iss.outgoing > HIGH_COUPLING_THRESHOLD))) ∧
    couplingIncoming ms p = countImportedBy ms p := by
  refine ⟨?_, ?_, couplingIncoming_eq_countImportedBy ms p (keyMem_of_mem hmem)⟩
  · constructor
    · rintro ⟨iss, hiss, hmod⟩
      rcases List.mem_filterMap.mp ((mem_analyze_coupling ms iss).mp hiss) with
        ⟨pr, hpr, hf⟩
      by_cases hc : couplingIncoming ms pr.1 + pr.2.import_count >
          TOTAL_COUPLING_THRESHOLD ∨
          (couplingIncoming ms pr.1 > HIGH_COUPLING_THRESHOLD ∧
            pr.2.import_count > HIGH_COUPLING_THRESHOLD)
      · rw [if_pos hc] at hf
        have hiss_eq := Option.some.inj hf
        have hp1 : pr.1 = p := by rw [← hmod, ← hiss_eq]
        have hinfo : pr.2 = info := by
          refine nodup_key_unique hnd ?_ hmem
          rw [← hp1]
          exact hpr
        rw [hp1, hinfo] at hc
        exact hc
      · rw [if_neg hc] at hf
        cases hf
    · intro hcond
      refine ⟨⟨p, couplingIncoming ms p, info.import_count,
        couplingIncoming ms p + info.import_count⟩, ?_, rfl⟩
      rw [mem_analyze_coupling]
      refine List.mem_filterMap.mpr ⟨(p, info), hmem, ?_⟩
      rw [if_pos hcond]
  · intro iss _
    simp [CouplingIssue.is_hub]

/-- Concrete single-module map for the C7 witness: `total = 11 > 10`. -/
def exW7 : ModList := [(str "m", ⟨str "m", [], 11, 0⟩)]

/-- Witness for C7: the module of `exW7` is flagged. -/
theorem coupling_flagging_witness :
    ∃ iss ∈ analyze_coupling exW7, iss.module = str "m" :=
  (coupling_flagging exW7 (str "m") ⟨str "m", [], 11, 0⟩ (by decide)
    (by decide)).1.mpr (by decide)

/-! ## C8 — coupling result order -/

/-- Sorted by `total` descending. -/
def sortedByTotalDesc (l : List CouplingIssue) : Prop :=
  l.Pairwise (fun x y => y.total ≤ x.total)

/-- Module map whose keys are in non-lexicographic order and whose two
issues tie on `total`. -/
def cexC8 : ModList :=
  [(str "b", ⟨str "b", [], 11, 0⟩), (str "a", ⟨str "a", [], 11, 0⟩)]

/-- C8 counterexample: on `cexC8` both issues have `total = 11`, the
path `a` precedes the path `b` in path (lexicographic) order, yet the
returned list is `[b, a]` — the tie is *not* broken by path order; the
stable sort keeps the module map's own order. -/
theorem coupling_tie_order_cex :
    analyze_coupling cexC8 =
      [⟨str "b", 0, 11, 11⟩, ⟨str "a", 0, 11, 11⟩] ∧
    (str "a") < (str "b") := by decide

lemma insertIssue_sorted {l : List CouplingIssue} (h : sortedByTotalDesc l)
    (x : CouplingIssue) : sortedByTotalDesc (insertIssue x l) := by
  induction l with
  | nil =>
    simp [insertIssue, sortedByTotalDesc]
  | cons y ys ih =>
    rcases List.pairwise_cons.mp h with ⟨hy, hys⟩
    rw [insertIssue]
    by_cases hc : x.total ≤ y.total
    · rw [if_pos hc]
      refine List.pairwise_cons.mpr ⟨?_, ih hys⟩
      intro z hz
      cases (mem_insertIssue x z ys).mp hz with
      | inl h1 => rw [h1]; exact hc
      | inr h2 => exact hy z h2
    · rw [if_neg hc]
      refine List.pairwise_cons.mpr ⟨?_, h⟩
      intro z hz
      cases List.mem_cons.mp hz with
      | inl h1 => rw [h1]; omega
      | inr h2 => have := hy z h2; omega

lemma insertIssue_filter {l : List CouplingIssue} (h : sortedByTotalDesc l)
    (x : CouplingIssue) (t : Nat) :
    (insertIssue x l).filter (fun i => i.total == t) =
      l.filter (fun i => i.total == t) ++
        (if x.total == t then [x] else []) := by
  induction l with
  | nil =>
    by_cases hxt : (x.total == t) = true
    · simp [insertIssue, List.filter_cons, hxt]
    · simp [insertIssue, List.filter_cons, hxt]
  | cons y ys ih =>
    rcases List.pairwise_cons.mp h with ⟨hy, hys⟩
    rw [insertIssue]
    by_cases hc : x.total ≤ y.total
    · rw [if_pos hc, List.filter_cons, List.filter_cons]
      by_cases hyt : (y.total == t) = true
      · simp only [hyt, if_true]
        rw [ih hys, List.cons_append]
      · simp only [hyt, Bool.false_eq_true, if_false]
        exact ih hys
    · rw [if_neg hc, List.filter_cons]
      by_cases hxt : (x.total == t) = true
      · have ht : x.total = t := by simpa using hxt
        have hnil : (y :: ys).filter (fun i => i.total == t) = [] := by
          rw [List.filter_eq_nil_iff]
          intro a ha
          have hle : a.total ≤ y.total := by
            cases List.mem_cons.mp ha with
            | inl h1 => rw [h1]
            | inr h2 => exact hy a h2
          have hlt : a.total < x.total := lt_of_le_of_lt hle (Nat.not_le.mp hc)
          simp only [beq_iff_eq]
          omega
        rw [hnil]
        simp [hxt]
      · simp [List.filter_cons, hxt]

lemma sortIssues_sorted_stable (l : List CouplingIssue) :
    sortedByTotalDesc (sortIssues l) ∧
    ∀ t : Nat, (sortIssues l).filter (fun i => i.total == t) =
      l.filter (fun i => i.total == t) := by
  suffices h : ∀ acc, sortedByTotalDesc acc →
      sortedByTotalDesc (l.foldl (fun acc x => insertIssue x acc) acc) ∧
      ∀ t : Nat,
        (l.foldl (fun acc x => insertIssue x acc) acc).filter
            (fun i => i.total == t) =
          acc.filter (fun i => i.total == t) ++
            l.filter (fun i => i.total == t) by
    rcases h [] (by simp [sortedByTotalDesc]) with ⟨hs, hf⟩
    exact ⟨hs, fun t => by simpa using hf t⟩
  induction l with
  | nil =>
    intro acc hacc
    exact ⟨hacc, fun t => by simp⟩
  | cons x xs ih =>
    intro acc hacc
    simp only [List.foldl_cons]
    rcases ih (insertIssue x acc) (insertIssue_sorted hacc x) with ⟨hs, hf⟩
    refine ⟨hs, fun t => ?_⟩
    rw [hf t, insertIssue_filter hacc x t, List.filter_cons]
    by_cases hxt : (x.total == t) = true
    · simp only [hxt, if_true]
      rw [List.append_assoc]
      rfl
    · simp only [hxt, Bool.false_eq_true, if_false, List.append_nil]

/-- C8 amended: the returned coupling list is sorted by `total`
descending, and issues with equal totals keep the relative order in
which their modules appear in the module map (`collectIssues` emits in
map order and the sort is stable), so the output is deterministic given
the map's iteration order — but ties are *not* re-sorted by path. -/
theorem coupling_order_stable_sort (ms : ModList) :
    sortedByTotalDesc (analyze_coupling ms) ∧
    ∀ t : Nat, (analyze_coupling ms).filter (fun i => i.total == t) =
      (collectIssues ms).filter (fun i => i.total == t) :=
  sortIssues_sorted_stable (collectIssues ms)

/-! ## C4 — layer-violation characterization -/

/-- C4: the `layer_violations` list contains the triple
`(source, target, "<sourceLayer> → <targetLayer>")` exactly for the
edges of the built graph both of whose endpoints are classified into a
layer (first matching pattern wins) such that the target layer differs
from the source layer and is not in the source layer's permitted set.
In particular same-layer edges (`tl ≠ sl` fails) and edges with an
unclassified endpoint (`get_layer` returns `none`) are never flagged. -/
theorem layer_violation_characterization (ms : ModList) (v : Str × Str × Str) :
    v ∈ detect_layer_violations ms ↔
      ∃ p info imp sl tl, (p, info) ∈ ms ∧ imp ∈ info.imports ∧
        get_layer p = some sl ∧ get_layer imp = some tl ∧
        tl ∉ allowed sl ∧ tl ≠ sl ∧ v = (p, imp, sl ++ str " → " ++ tl) := by
  rw [detect_layer_violations, List.mem_flatten]
  constructor
  · rintro ⟨l, hl, hv⟩
    rcases List.mem_map.mp hl with ⟨pr, hpr, rfl⟩
    obtain ⟨p, info⟩ := pr
    cases hgl : get_layer p with
    | none => simp only [hgl] at hv; cases hv
    | some sl =>
      simp only [hgl] at hv
      rcases List.mem_filterMap.mp hv with ⟨imp, himp, heq⟩
      cases hgt : get_layer imp with
      | none => simp only [hgt] at heq; cases heq
      | some tl =>
        simp only [hgt] at heq
        by_cases hcnd : tl ∉ allowed sl ∧ tl ≠ sl
        · rw [if_pos hcnd] at heq
          exact ⟨p, info, imp, sl, tl, hpr, himp, hgl, hgt, hcnd.1, hcnd.2,
            (Option.some.inj heq).symm⟩
        · rw [if_neg hcnd] at heq
          cases heq
  · rintro ⟨p, info, imp, sl, tl, hmem, himp, hgl, hgt, hna, hne, rfl⟩
    refine ⟨_, List.mem_map.mpr ⟨(p, info), hmem, rfl⟩, ?_⟩
    simp only [hgl]
    refine List.mem_filterMap.mpr ⟨imp, himp, ?_⟩
    simp only [hgt]
    rw [if_pos ⟨hna, hne⟩]

/-! ## C6 — resolver totality -/

lemma probeExts_some {fs : FS} {p base r : Str} (h : probeExts fs p base = some r) :
    ∃ ext, ext ∈ extList ∧ fs.isfile (p ++ ext) = true ∧
      r = normalize_path (p ++ ext) base := by
  unfold probeExts at h
  cases hf : extList.find? (fun ext => fs.isfile (p ++ ext)) with
  | none => rw [hf] at h; cases h
  | some ext =>
    rw [hf] at h
    have hp := List.find?_some hf
    exact ⟨ext, List.mem_of_find?_eq_some hf, by simpa using hp,
      (Option.some.inj h).symm⟩

/-- C6: every failure mode of the resolver returns `None` (the embedding
is a total function, mirroring the source, whose only error path is the
explicit `return None`).  First conjunct: a bare specifier for which
neither the literal path under the project root nor that path plus
`.ts` exists resolves to `None` (external).  Second conjunct: whenever
resolution succeeds, an actual file was found by the suffix probe — so
everything that is not a hit collapses to `None`. -/
theorem resolver_totality :
    (∀ (fs : FS) (ip cf base : Str),
      sStartsWith ip (str ".") = false →
      sStartsWith ip (str "@/") = false →
      sStartsWith ip (str "~/") = false →
      sStartsWith ip (str "/") = false →
      fs.existsPath (pjoin base ip) = false →
      fs.existsPath (pjoin base ip ++ str ".ts") = false →
      resolve_import fs ip cf base = none) ∧
    (∀ (fs : FS) (ip cf base r : Str), resolve_import fs ip cf base = some r →
      ∃ pre ext, ext ∈ extList ∧ fs.isfile (pre ++ ext) = true ∧
        r = normalize_path (pre ++ ext) base) := by
  constructor
  · intro fs ip cf base h1 h2 h3 h4 h5 h6
    simp [resolve_import, h1, h2, h3, h4, h5, h6]
  · intro fs ip cf base r h
    simp only [resolve_import] at h
    split at h
    · exact ⟨_, (probeExts_some h).choose, (probeExts_some h).choose_spec⟩
    · split at h
      · exact ⟨_, (probeExts_some h).choose, (probeExts_some h).choose_spec⟩
      · split at h
        · split at h
          · exact ⟨_, (probeExts_some h).choose, (probeExts_some h).choose_spec⟩
          · cases h
        · exact ⟨_, (probeExts_some h).choose, (probeExts_some h).choose_spec⟩

/-- Witness for C6: the bare specifier `lodash` on an empty filesystem. -/
theorem resolver_totality_witness :
    resolve_import ⟨[], []⟩ (str "lodash") (str "mod.ts") (str "") = none :=
  resolver_totality.1 ⟨[], []⟩ (str "lodash") (str "mod.ts") (str "")
    (by decide) (by decide) (by decide) (by decide) (by decide) (by decide)

/-! ## C5 — resolver rules 1–2 -/

lemma splitOnSlash_cons (c : Char) (cs : Str) :
    splitOnSlash (c :: cs) =
      match splitOnSlash cs with
      | [] => [[]]
      | h :: t => if c == '/' then [] :: h :: t else (c :: h) :: t := rfl

lemma splitOnSlash_ne_nil (s : Str) : splitOnSlash s ≠ [] := by
  induction s with
  | nil => simp [splitOnSlash]
  | cons c cs ih =>
    rw [splitOnSlash_cons]
    cases h : splitOnSlash cs with
    | nil => simp
    | cons hd tl =>
      by_cases hc : (c == '/') = true <;> simp [hc]

lemma join_split (s : Str) : joinSlash (splitOnSlash s) = s := by
  induction s with
  | nil => rfl
  | cons c cs ih =>
    rw [splitOnSlash_cons]
    cases h : splitOnSlash cs with
    | nil => exact absurd h (splitOnSlash_ne_nil cs)
    | cons hd tl =>
      rw [h] at ih
      by_cases hc : (c == '/') = true
      · have hceq : c = '/' := by simpa using hc
        subst hceq
        show joinSlash
          (if ('/' == '/') = true then [] :: hd :: tl else ('/' :: hd) :: tl) =
            '/' :: cs
        rw [if_pos hc]
        show '/' :: joinSlash (hd :: tl) = '/' :: cs
        rw [ih]
      · show joinSlash
          (if (c == '/') = true then [] :: hd :: tl else (c :: hd) :: tl) =
            c :: cs
        rw [if_neg hc]
        cases tl with
        | nil =>
          show c :: hd = c :: cs
          rw [show joinSlash [hd] = hd from rfl] at ih
          rw [ih]
        | cons q ts =>
          show (c :: hd) ++ '/' :: joinSlash (q :: ts) = c :: cs
          rw [← ih]
          rfl

/-- A raw relative path made of `k` leading `../` segments followed by
`rem`. -/
def upPath (k : Nat) (rem : Str) : Str :=
  (List.replicate k (str "../")).flatten ++ rem

lemma upPath_zero (rem : Str) : upPath 0 rem = rem := rfl

lemma upPath_succ (k : Nat) (rem : Str) :
    upPath (k + 1) rem = '.' :: '.' :: '/' :: upPath k rem := by
  show (List.replicate (k + 1) (str "../")).flatten ++ rem = _
  rw [List.replicate_succ, List.flatten_cons, List.append_assoc]
  rfl

lemma splitOnSlash_dotdotslash (s : Str) (hd : Str) (tl : List Str)
    (h : splitOnSlash s = hd :: tl) :
    splitOnSlash ('.' :: '.' :: '/' :: s) = str ".." :: hd :: tl := by
  rw [splitOnSlash_cons, splitOnSlash_cons, splitOnSlash_cons, h]
  rfl

lemma splitOnSlash_up (k : Nat) (rem : Str) :
    splitOnSlash (upPath k rem) =
      List.replicate k (str "..") ++ splitOnSlash rem := by
  induction k with
  | zero => simp [upPath_zero]
  | succ k ih =>
    cases h : splitOnSlash (upPath k rem) with
    | nil => exact absurd h (splitOnSlash_ne_nil _)
    | cons hd tl =>
      rw [upPath_succ, splitOnSlash_dotdotslash _ hd tl h,
        List.replicate_succ, List.cons_append]
      rw [h] at ih
      rw [← ih]

lemma filter_rep_append_pos (k : Nat) (parts : List Str)
    (hp : str ".." ∉ parts) :
    ((List.replicate k (str "..") ++ parts).filter
      (fun p => decide (p = str ".."))).length = k := by
  rw [List.filter_append]
  have h1 : (List.replicate k (str "..")).filter
      (fun p => decide (p = str "..")) = List.replicate k (str "..") := by
    apply List.filter_eq_self.mpr
    intro a ha
    simp [List.eq_of_mem_replicate ha]
  have h2 : parts.filter (fun p => decide (p = str "..")) = [] := by
    apply List.filter_eq_nil_iff.mpr
    intro a ha
    simp only [decide_eq_true_eq]
    intro hc
    rw [hc] at ha
    exact hp ha
  rw [h1, h2, List.append_nil, List.length_replicate]

lemma filter_rep_append_neg (k : Nat) (parts : List Str)
    (hp : str ".." ∉ parts) :
    (List.replicate k (str "..") ++ parts).filter
      (fun p => decide (¬ p = str "..")) = parts := by
  rw [List.filter_append]
  have h1 : (List.replicate k (str "..")).filter
      (fun p => decide (¬ p = str "..")) = [] := by
    apply List.filter_eq_nil_iff.mpr
    intro a ha
    simp [List.eq_of_mem_replicate ha]
  have h2 : parts.filter (fun p => decide (¬ p = str "..")) = parts := by
    apply List.filter_eq_self.mpr
    intro a ha
    simp only [decide_eq_true_eq]
    intro hc
    rw [hc] at ha
    exact hp ha
  rw [h1, h2, List.nil_append]

/-- C5: resolver rules 1–2.  (i) A raw path `./rest` resolves against
the importing file's directory (then suffix probing); (ii) a raw path of
`k ≥ 1` leading `../` segments followed by a `..`-free remainder moves
exactly `k` directories up from the importing file's directory and joins
the remainder (then suffix probing); (iii) `@/tail` resolves to `tail`
under the project root for *every* importing file (then suffix probing);
and concretely, from `a/b/c.ts` the raw path `../d` resolves to `a/d`,
`./e` resolves to `a/b/e`, and `@/x/y` resolves to `x/y` under the
root. -/
theorem resolver_relative_and_alias_rules (fs : FS) (cf base : Str) :
    (∀ rest : Str, resolve_import fs ('.' :: '/' :: rest) cf base =
        probeExts fs (pjoin (dirname cf) rest) base) ∧
    (∀ (k : Nat) (rem : Str), 0 < k → str ".." ∉ splitOnSlash rem →
        resolve_import fs (upPath k rem) cf base =
          probeExts fs (pjoin (Nat.repeat dirname k (dirname cf)) rem) base) ∧
    (∀ tl : Str, resolve_import fs ('@' :: '/' :: tl) cf base =
        probeExts fs (pjoin base tl) base) ∧
    (resolve_import ⟨[str "a/d"], []⟩ (str "../d") (str "a/b/c.ts") (str "") =
        some (str "a/d") ∧
      resolve_import ⟨[str "a/b/e"], []⟩ (str "./e") (str "a/b/c.ts") (str "") =
        some (str "a/b/e") ∧
      resolve_import ⟨[str "x/y"], []⟩ (str "@/x/y") (str "any/file.ts") (str "") =
        some (str "x/y")) := by
  refine ⟨?_, ?_, ?_, by decide, by decide, by decide⟩
  · intro rest
    have h1 : sStartsWith ('.' :: '/' :: rest) (str ".") = true := rfl
    have h2 : sStartsWith ('.' :: '/' :: rest) (str "./") = true := rfl
    simp [resolve_import, h1, h2]
  · intro k rem hk hrem
    obtain ⟨j, rfl⟩ : ∃ j, k = j + 1 := ⟨k - 1, by omega⟩
    have h1 : sStartsWith (upPath (j + 1) rem) (str ".") = true := by
      rw [upPath_succ]; rfl
    have h2 : sStartsWith (upPath (j + 1) rem) (str "./") = false := by
      rw [upPath_succ]; rfl
    have h3 : sStartsWith (upPath (j + 1) rem) (str "../") = true := by
      rw [upPath_succ]; rfl
    have hcount : ((splitOnSlash (upPath (j + 1) rem)).filter
        (fun p => decide (p = str ".."))).length = j + 1 := by
      rw [splitOnSlash_up]
      exact filter_rep_append_pos _ _ hrem
    have hrest : joinSlash ((splitOnSlash (upPath (j + 1) rem)).filter
        (fun p => decide (¬ p = str ".."))) = rem := by
      rw [splitOnSlash_up, filter_rep_append_neg _ _ hrem, join_split]
    simp only [resolve_import, h1, h2, h3, Bool.false_eq_true, if_true, if_false,
      eq_self_iff_true, ite_true, ite_false]
    rw [hcount, hrest]
  · intro tl
    have h1 : sStartsWith ('@' :: '/' :: tl) (str ".") = false := rfl
    have h2 : sStartsWith ('@' :: '/' :: tl) (str "@/") = true := rfl
    simp [resolve_import, h1, h2]

/-- Witness for C5 at `k = 1`, remainder `d`. -/
theorem resolver_relative_and_alias_rules_witness :
    0 < 1 ∧
    resolve_import ⟨[str "a/d"], []⟩ (upPath 1 (str "d")) (str "a/b/c.ts")
        (str "") =
      probeExts ⟨[str "a/d"], []⟩
        (pjoin (Nat.repeat dirname 1 (dirname (str "a/b/c.ts"))) (str "d"))
        (str "") :=
  ⟨by decide,
    (resolver_relative_and_alias_rules ⟨[str "a/d"], []⟩ (str "a/b/c.ts")
      (str "")).2.1 1 (str "d") (by decide) (by decide)⟩

/-! ## C9 — Python extraction anchoring -/

lemma scanImpAux_cons_false (fuel : Nat) (c : Char) (cs : Str) :
    scanImpAux (fuel + 1) false (c :: cs) = scanImpAux fuel (c == '\n') cs := rfl

lemma scanImpAux_cons_true_none {c : Char} {cs : Str} (fuel : Nat)
    (h : tryImport (c :: cs) = none) :
    scanImpAux (fuel + 1) true (c :: cs) = scanImpAux fuel (c == '\n') cs := by
  simp [scanImpAux, h]

lemma scanImpAux_no_newline (fuel : Nat) :
    ∀ cs : Str, '\n' ∉ cs → scanImpAux fuel false cs = [] := by
  induction fuel with
  | zero => intro cs _; rfl
  | succ fuel ih =>
    intro cs h
    cases cs with
    | nil => rfl
    | cons c cs' =>
      rw [scanImpAux_cons_false]
      have hc : (c == '\n') = false := by
        simp only [List.mem_cons, not_or] at h
        simp only [beq_eq_false_iff_ne, ne_eq]
        exact fun hcc => h.1 hcc.symm
      rw [hc]
      exact ih cs' (fun hm => h (List.mem_cons_of_mem _ hm))

lemma scanImp_eq_nil {content : Str} (h1 : '\n' ∉ content)
    (h2 : tryImport content = none) : scanImp content = [] := by
  unfold scanImp
  cases content with
  | nil => rfl
  | cons c cs =>
    rw [scanImpAux_cons_true_none _ h2]
    have hc : (c == '\n') = false := by
      simp only [List.mem_cons, not_or] at h1
      simp only [beq_eq_false_iff_ne, ne_eq]
      exact fun hcc => h1.1 hcc.symm
    rw [hc]
    exact scanImpAux_no_newline _ cs
      (fun hm => h1 (List.mem_cons_of_mem _ hm))

/-- C9 counterexample: the content is a single line that does not start
with `from`, its only `from … import` shape sits mid-line behind `#`,
yet the extractor still yields the import `a` — the `from` pattern is
matched without any statement-start anchor. -/
theorem py_from_pattern_midline_cex :
    ('\n' ∉ str "x = 1 # from a import b") ∧
    sStartsWith (str "x = 1 # from a import b") (str "from") = false ∧
    extract_imports_python ⟨[str "/r/a"], []⟩ (str "x = 1 # from a import b")
      (str "/r/m.py") (str "/r") = [str "a"] := by decide

/-- C9 amended: only the `import <dotted.path>` pattern is anchored
(`^` with `re.MULTILINE`), so it yields imports solely from matches
starting at the beginning of a line: on any single-line content whose
start does not match the pattern, the whole extraction degenerates to
the `from` pass.  The `from <dotted.path> import` pattern is unanchored
and matches anywhere in the content, even mid-line (second conjunct). -/
theorem py_import_pattern_line_anchored (fs : FS) (content fp base : Str)
    (h1 : '\n' ∉ content) (h2 : tryImport content = none) :
    extract_imports_python fs content fp base =
      pyFromImports fs content fp base ∧
    scanFrom (str "z = 1 # from aa import bb") = [str "aa"] := by
  constructor
  · rw [extract_imports_python, pyLineImports, scanImp_eq_nil h1 h2]
    simp
  · decide

/-- Witness for the amended C9 on a one-line non-import content. -/
theorem py_import_pattern_line_anchored_witness :
    extract_imports_python ⟨[], []⟩ (str "q = 1") (str "m.py") (str "") =
      pyFromImports ⟨[], []⟩ (str "q = 1") (str "m.py") (str "") :=
  (py_import_pattern_line_anchored ⟨[], []⟩ (str "q = 1") (str "m.py")
    (str "") (by decide) (by decide)).1

end DepAnalyzer
